/-
Verification of the recon library (OpenGraph metadata scraper) against its
natural-language specification.

The Go source `recon.go` contains two snapshots of the library: a legacy
version (methods on `Parser`: `Parser.tokenize`, `Parser.getMaxProperty`,
`Parser.analyzeImages`, with `ParseWithConfidence`) and the current version
(free functions `parseMeta` / `parseImg` / `parseTitle`, methods on
`parseJob`, and `Parser.analyzeImages` with a `sort.Slice` comparator).

Shallow embedding conventions:
  * Go `float64` priorities and aspect ratios are modelled as `ℚ`; all values
    that occur (0, 1/2, 1, 191/100, width/height) and all operations used on
    them (comparison, subtraction, absolute value, division) are exact, so the
    order-theoretic claims are unaffected by the change of carrier.
  * The external collaborators named by the spec (HTTP transport, `net/url`
    parsing/resolution, base64, and the three raster decoders) are oracles
    passed in as function parameters, exactly at the interface boundary the
    spec draws.
  * The streaming HTML tokenizer is modelled at its event level: a finite list
    of `Tok` events (start tag / self-closing tag / text / fatal error), with
    clean end-of-stream represented by the end of the list.  A fatal tokenizer
    error is sticky in `x/net/html` (every later `Next` returns it again), so
    a `Tok.errTok` consumed by the `<title>` look-ahead still errors out the
    loop on the next iteration; the embedding returns the error directly.
  * Goroutine fan-in is modelled by the sequence of values sent on the
    completion channel: each worker's sends are computed by `workerSends`, and
    the collection loop is a pure function of the arrival events.
-/
import Mathlib

namespace Recon

/-- Go struct `metaTag` (a metadata candidate: identifier, value, priority). -/
structure metaTag where
  name : String
  value : String
  priority : ℚ
deriving DecidableEq, Repr

/-- Go struct `imgTag` (a discovered image reference). -/
structure imgTag where
  url : String
  alt : String
  preferred : Bool
deriving DecidableEq, Repr

/-- Go struct `Image` (an exported image descriptor). -/
structure Image where
  url : String
  type : String
  width : Nat
  height : Nat
  alt : String
  aspectRatio : ℚ
  preferred : Bool
deriving DecidableEq, Repr

/-- Go struct `parsedImage` (a fetched-but-not-yet-measured image; `data` is
the body byte stream, modelled as a list of bytes). -/
structure parsedImage where
  url : String
  data : List Nat
  alt : String
  contentType : String
  preferred : Bool
deriving DecidableEq, Repr

/-- The zero value `parsedImage{}` that failed workers send on the channel. -/
def zeroParsedImage : parsedImage :=
  { url := "", data := [], alt := "", contentType := "", preferred := false }

/-- A parsed `net/url.URL`, abstracted to the two projections the library
reads: `String()` and `Host`. -/
structure Url where
  str : String
  host : String
deriving DecidableEq, Repr

/-- The weight 0.5, written as a normal-form rational (`Rat.mk'`) so that the
kernel can evaluate comparisons on it (`1/2 : ℚ` is equal to it, but does
not reduce definitionally). -/
def half : ℚ := Rat.mk' 1 2 (by decide) (Nat.coprime_one_left 2)

/-- Go package-level map `targetedProperties`: identifier → priority weight. -/
def targetedProperties : String → Option ℚ
  | "og:site_name" => some 1
  | "og:title" => some 1
  | "og:type" => some 1
  | "og:description" => some 1
  | "og:author" => some 1
  | "og:publisher" => some 1
  | "og:url" => some 1
  | "og:image" => some 1
  | "site_name" => some half
  | "title" => some half
  | "type" => some half
  | "description" => some half
  | "author" => some half
  | "publisher" => some half
  | _ => none

/-- Go package-level map `propertyMap`: logical field → eligible identifiers
(identical in both snapshots).  Absent keys give the Go zero value `nil`. -/
def propertyMap : String → List String
  | "URL" => ["og:url"]
  | "Site" => ["og:site_name", "site_name"]
  | "Title" => ["og:title", "title"]
  | "Type" => ["og:type", "type"]
  | "Description" => ["og:description", "description"]
  | "Author" => ["og:author", "author"]
  | "Publisher" => ["og:publisher", "publisher"]
  | _ => []

/-- The registry weight of an identifier (0 for unrecognized identifiers). -/
def registryWeight (n : String) : ℚ := (targetedProperties n).getD 0

/-- One step of the resolver's inner loop over `p.metaTags` for a fixed
`searchTag`: overwrite the accumulator exactly when the tag matches the
search identifier and its priority strictly exceeds the running maximum. -/
def resolveStep (searchTag : String) (acc : String × ℚ) (tag : metaTag) : String × ℚ :=
  if tag.name = searchTag ∧ acc.2 < tag.priority then (tag.value, tag.priority) else acc

/-- `parseJob.getMaxProperty` (identical to the legacy `Parser.getMaxProperty`):
outer loop over the field's eligible identifiers, inner loop over the
extracted candidates, starting from `val := ""` and `maxWeight := 0`. -/
def getMaxProperty (tags : List metaTag) (key : String) : String :=
  ((propertyMap key).foldl (fun acc searchTag => tags.foldl (resolveStep searchTag) acc)
    ("", 0)).1

/-- Every candidate's priority is the registry weight of its identifier.  This
is an invariant of both extractors (see `tokenizeGo_consistent`). -/
def consistent (tags : List metaTag) : Prop :=
  ∀ t ∈ tags, t.priority = registryWeight t.name

instance (tags : List metaTag) : Decidable (consistent tags) :=
  inferInstanceAs (Decidable (∀ t ∈ tags, t.priority = registryWeight t.name))

/-- The candidates eligible for a field, in extraction order. -/
def eligibles (key : String) (tags : List metaTag) : List metaTag :=
  tags.filter (fun t => decide (t.name ∈ propertyMap key))

/-- HTML tokenizer events (the markup collaborator's interface).  Clean EOF is
the end of the event list; `errTok` is any other (fatal) tokenizer error. -/
inductive Tok where
  | start (name : String) (attrs : List (String × String))
  | selfClosing (name : String) (attrs : List (String × String))
  | text (s : String)
  | errTok (msg : String)
deriving DecidableEq, Repr

/-- `strings.TrimSpace`, modelled on the character list so that the kernel
can evaluate it (stdlib `String.trim` does not reduce definitionally). -/
def trimModel (s : String) : String :=
  String.mk (((s.data.dropWhile Char.isWhitespace).reverse.dropWhile
    Char.isWhitespace).reverse)

/-- Current `parseMeta`: scan the attribute list in document order; a
`property`/`name` attribute whose value is in the registry sets the
identifier (trimmed) and priority; a `content` attribute sets the value
(trimmed); return the zero `metaTag{}` when no recognized identifier gave a
positive priority. -/
def metaScanStep (acc : String × String × ℚ) (kv : String × String) :
    String × String × ℚ :=
  if kv.1 = "property" ∨ kv.1 = "name" then
    match targetedProperties kv.2 with
    | some w => (acc.1, trimModel kv.2, w)
    | none => acc
  else if kv.1 = "content" then (trimModel kv.2, acc.2.1, acc.2.2)
  else acc

def metaScan (attrs : List (String × String)) : String × String × ℚ :=
  attrs.foldl metaScanStep ("", "", 0)

def parseMeta (attrs : List (String × String)) : metaTag :=
  if 0 < (metaScan attrs).2.2 then
    { name := (metaScan attrs).2.1, value := (metaScan attrs).1,
      priority := (metaScan attrs).2.2 }
  else { name := "", value := "", priority := 0 }

/-- Legacy `Parser.parseMeta`: same scan but without `strings.TrimSpace`. -/
def metaScanLegacy (attrs : List (String × String)) : String × String × ℚ :=
  attrs.foldl
    (fun (acc : String × String × ℚ) kv =>
      if kv.1 = "property" ∨ kv.1 = "name" then
        match targetedProperties kv.2 with
        | some w => (acc.1, kv.2, w)
        | none => acc
      else if kv.1 = "content" then (kv.2, acc.2.1, acc.2.2)
      else acc)
    ("", "", 0)

def parseMetaLegacy (attrs : List (String × String)) : metaTag :=
  if 0 < (metaScanLegacy attrs).2.2 then
    { name := (metaScanLegacy attrs).2.1, value := (metaScanLegacy attrs).1,
      priority := (metaScanLegacy attrs).2.2 }
  else { name := "", value := "", priority := 0 }

/-- `parseImg` (identical in both snapshots): read `src` and `alt`; if no
non-empty `src` was found return the zero `imgTag{}`. -/
def parseImg (attrs : List (String × String)) : imgTag :=
  let i := attrs.foldl
    (fun (i : imgTag) kv =>
      if kv.1 = "src" then { i with url := kv.2 }
      else if kv.1 = "alt" then { i with alt := kv.2 }
      else i)
    { url := "", alt := "", preferred := false }
  if i.url ≠ "" then i else { url := "", alt := "", preferred := false }

/-- `parseTitle` (identical in both snapshots): the text node after a
`<title>` tag becomes a candidate with identifier "title" and priority 0.5. -/
def parseTitle (s : String) : metaTag :=
  { name := "title", value := s, priority := half }

/-- A candidate the current extractor can record: either it has positive
priority, or it is the zero `metaTag{}` recorded for a meta tag with no
recognized identifier. -/
def goodTag (c : metaTag) : Prop :=
  0 < c.priority ∨ c = { name := "", value := "", priority := 0 }

/-- Current `parseJob.tokenize`, as a function of the event stream.  Every
`meta` tag's result is appended to `metaTags` unconditionally; an `og:image`
candidate additionally records a preferred image reference; `img` tags are
recorded only when `src` is non-empty; a `title` tag consumes the next event
and records a candidate only when that event is text.  A fatal tokenizer
error aborts with that error; end of stream returns the accumulators. -/
def tokenizeGo : List Tok → List metaTag → List imgTag →
    Except String (List metaTag × List imgTag)
  | [], ms, is => .ok (ms, is)
  | .errTok e :: _, _, _ => .error e
  | .text _ :: rest, ms, is => tokenizeGo rest ms is
  | .start name attrs :: rest, ms, is
  | .selfClosing name attrs :: rest, ms, is =>
    if name = "meta" then
      let res := parseMeta attrs
      let is' := if res.name = "og:image" then
        is ++ [{ url := res.value, alt := "", preferred := true }] else is
      tokenizeGo rest (ms ++ [res]) is'
    else if name = "img" then
      let res := parseImg attrs
      tokenizeGo rest ms (if res.url ≠ "" then is ++ [res] else is)
    else if name = "title" then
      match rest with
      | .text s :: rest' => tokenizeGo rest' (ms ++ [parseTitle s]) is
      | .errTok e :: _ => .error e
      | _ :: rest' => tokenizeGo rest' ms is
      | [] => .ok (ms, is)
    else tokenizeGo rest ms is

/-- Current tokenization pass starting from the empty accumulators. -/
def tokenizeJob (toks : List Tok) : Except String (List metaTag × List imgTag) :=
  tokenizeGo toks [] []

/-- Legacy `Parser.tokenize` with a minimum-confidence threshold: a `meta` or
`title` candidate is appended only when its priority strictly exceeds the
threshold; `img` handling is unconditional.  The legacy loop never exits on a
non-EOF tokenizer error (its `ErrorToken` case only checks EOF), so it spins
forever there; that divergence is encoded as `none`. -/
def tokenizeLegacyGo (confidence : ℚ) : List Tok → List metaTag → List imgTag →
    Option (List metaTag × List imgTag)
  | [], ms, is => some (ms, is)
  | .errTok _ :: _, _, _ => none
  | .text _ :: rest, ms, is => tokenizeLegacyGo confidence rest ms is
  | .start name attrs :: rest, ms, is
  | .selfClosing name attrs :: rest, ms, is =>
    if name = "meta" then
      let res := parseMetaLegacy attrs
      tokenizeLegacyGo confidence rest
        (if confidence < res.priority then ms ++ [res] else ms) is
    else if name = "img" then
      let res := parseImg attrs
      tokenizeLegacyGo confidence rest ms (if res.url ≠ "" then is ++ [res] else is)
    else if name = "title" then
      match rest with
      | .text s :: rest' =>
        tokenizeLegacyGo confidence rest'
          (if confidence < (parseTitle s).priority then ms ++ [parseTitle s] else ms) is
      | .errTok _ :: _ => none
      | _ :: rest' => tokenizeLegacyGo confidence rest' ms is
      | [] => some (ms, is)
    else tokenizeLegacyGo confidence rest ms is

/-- Legacy tokenization pass starting from the empty accumulators. -/
def tokenizeLegacy (toks : List Tok) (confidence : ℚ) :
    Option (List metaTag × List imgTag) :=
  tokenizeLegacyGo confidence toks [] []

/-- Go `strings.SplitN(s, sep, 2)`: split only at the first separator. -/
def splitN2 (s : String) (sep : String) : List String :=
  match s.splitOn sep with
  | [] => [s]
  | [x] => [x]
  | x :: rest => [x, String.intercalate sep rest]

/-- Go `strings.Replace(s, pat, "", 1)`: delete the first occurrence of
`pat`. -/
def replaceFirst (s pat : String) : String :=
  match s.splitOn pat with
  | [] => s
  | [x] => x
  | x :: y :: rest => String.intercalate pat ((x ++ y) :: rest)

/-- The external collaborators of the image pipeline, at the interface
boundary the spec draws: `net/url` parsing and reference resolution, image
HTTP fetch (`none` is a transport error; image fetches never check the HTTP
status), base64 decoding, and the three raster decoders (each returns the
pixel width/height of the decoded bounds, or `none` on decode failure). -/
structure Env where
  urlParse : String → Option Url
  resolve : Url → Url → Url
  fetch : String → Option (String × List Nat)
  b64decode : String → Option (List Nat)
  decodeJPEG : List Nat → Option (Nat × Nat)
  decodeGIF : List Nat → Option (Nat × Nat)
  decodePNG : List Nat → Option (Nat × Nat)

/-- `parseImgFromData`: split the data URL on the first ";", strip one
"base64," marker, base64-decode the payload, and take the declared media
type from after the first ":" of the header.  (The source indexes
`parts[1]` of the header split unconditionally; the embedding reads it with
a default, which only differs on inputs where the Go code would panic.) -/
def parseImgFromData (b64 : String → Option (List Nat)) (i : imgTag) :
    Except String parsedImage :=
  let parts := splitN2 i.url ";"
  if parts.length < 2 then .error "malformed data url"
  else
    let header := parts.getD 0 ""
    let body := parts.getD 1 ""
    match b64 (replaceFirst body "base64,") with
    | none => .error "base64 decode error"
    | some full =>
      let hparts := splitN2 header ":"
      .ok { contentType := hparts.getD 1 "", data := full, url := i.url,
            alt := i.alt, preferred := i.preferred }

/-- `parsedImage.export` (Lean forbids `export` as a name): select a decoder
by the declared content type; a decode failure or unrecognized type leaves
width and height at 0; the aspect ratio is width/height when the height is
positive, else the zero sentinel. -/
def exportImage (env : Env) (pin : parsedImage) : Image :=
  let wh : Nat × Nat :=
    if pin.contentType = "image/jpeg" then (env.decodeJPEG pin.data).getD (0, 0)
    else if pin.contentType = "image/gif" then (env.decodeGIF pin.data).getD (0, 0)
    else if pin.contentType = "image/png" then (env.decodePNG pin.data).getD (0, 0)
    else (0, 0)
  { url := pin.url, type := pin.contentType, width := wh.1, height := wh.2,
    alt := pin.alt,
    aspectRatio := if 0 < wh.2 then (wh.1 : ℚ) / (wh.2 : ℚ) else 0,
    preferred := pin.preferred }

/-- The values one worker goroutine of the current `Parser.analyzeImages`
sends on the completion channel, in order: the zero `parsedImage{}` on a
malformed source URL or a failed fetch; on the data-URL branch a failed
decode sends the zero value and then — the source's error branch lacks a
`return` — also sends the (zero) decode result, i.e. two sends. -/
def workerSends (env : Env) (base : Url) (tag : imgTag) : List parsedImage :=
  match env.urlParse tag.url with
  | none => [zeroParsedImage]
  | some u0 =>
    let u := env.resolve base u0
    if u.str.startsWith "data:" then
      match parseImgFromData env.b64decode tag with
      | .error _ => [zeroParsedImage, zeroParsedImage]
      | .ok img => [img]
    else
      match env.fetch u.str with
      | none => [zeroParsedImage]
      | some ct_body =>
        [{ url := u.str, data := ct_body.2, alt := tag.alt,
           contentType := ct_body.1, preferred := tag.preferred }]

/-- The comparator of the current `Parser.analyzeImages` `sort.Slice` call
(same ordering as the legacy `byPreferred.Less`): preferred first, then by
absolute distance of the aspect ratio from the optimal aspect ratio. -/
def lessImg (opt : ℚ) (a b : Image) : Bool :=
  if a.preferred && !b.preferred then true
  else if !a.preferred && b.preferred then false
  else decide (|a.aspectRatio - opt| < |b.aspectRatio - opt|)

/-- The total preorder realized by sorting with `lessImg`: Go's sort
guarantees that in the output no later element is strictly less than an
earlier one, i.e. consecutive elements satisfy `lessImg b a = false`. -/
def imgSortRel (opt : ℚ) (a b : Image) : Prop := lessImg opt b a = false

instance (opt : ℚ) : DecidableRel (imgSortRel opt) :=
  fun a b => inferInstanceAs (Decidable (lessImg opt b a = false))

/-- The pipeline's final ranking step (`sort.Slice` with `lessImg`). -/
def sortImages (opt : ℚ) (l : List Image) : List Image :=
  List.insertionSort (imgSortRel opt) l

/-- The current `Parser.analyzeImages` on a run where the deadline does not
fire, with worker completions arriving in launch order: every launched
reference contributes its channel sends, the collection loop appends an
exported descriptor per received value and stops as soon as it has as many
results as launched references, and the collected list is sorted.  Zero
references short-circuit to the empty list. -/
def analyzeImagesModel (env : Env) (base : Url) (opt : ℚ) (tags : List imgTag) :
    List Image :=
  let sends := (tags.map (workerSends env base)).flatten
  let collected := sends.take tags.length
  sortImages opt (collected.map (exportImage env))

/-- An arrival event observed by the collection loop's `select`: the deadline
timer fires, or a worker's result is received on the completion channel. -/
inductive Event where
  | timer
  | recv (img : parsedImage)
deriving DecidableEq, Repr

/-- Outcome of running the collection loop against a finite arrival trace:
`finished` when the loop exited, `blocked` when it consumed the whole trace
and is still blocking in `select` waiting for more channel sends. -/
inductive Outcome where
  | finished (acc : List parsedImage)
  | blocked (acc : List parsedImage)
deriving DecidableEq, Repr

/-- The collection loop of the current `Parser.analyzeImages`.  The `break`
in the timer case of the source's `select` only exits the `select`
statement, not the `for` loop, so a timer event changes nothing: the loop
continues (and blocks again on the channel) unless the count check
`len(returned) >= numFound` already passes. -/
def collectCurrent (numFound : Nat) : List Event → List parsedImage → Outcome
  | [], acc => .blocked acc
  | .timer :: rest, acc =>
    if numFound ≤ acc.length then .finished acc else collectCurrent numFound rest acc
  | .recv img :: rest, acc =>
    let acc' := acc ++ [img]
    if numFound ≤ acc'.length then .finished acc' else collectCurrent numFound rest acc'

/-- The collection loop of the legacy `Parser.analyzeImages`, which sets a
`timed_out` flag in the timer case and breaks out of the `for` loop right
after the `select` when the flag is set. -/
def collectLegacy (numFound : Nat) : List Event → List parsedImage → Outcome
  | [], acc => .blocked acc
  | .timer :: _, acc => .finished acc
  | .recv img :: rest, acc =>
    let acc' := acc ++ [img]
    if numFound ≤ acc'.length then .finished acc' else collectLegacy numFound rest acc'

/-- An HTTP response for the page fetch: status code, status line, and the
body as the tokenizer-event stream it tokenizes to. -/
structure PageResponse where
  statusCode : Nat
  status : String
  body : List Tok

/-- Go struct `Result` (scrape timestamp modelled as a `Nat`). -/
structure Result where
  url : String
  host : String
  site : String
  title : String
  type : String
  description : String
  author : String
  publisher : String
  images : List Image
  scraped : Nat
deriving DecidableEq, Repr

/-- The Go zero value `Result{}`. -/
def zeroResult : Result :=
  { url := "", host := "", site := "", title := "", type := "", description := "",
    author := "", publisher := "", images := [], scraped := 0 }

/-- `parseJob.buildResult` (same logic as the legacy `Parser.buildResult`):
URL and Host start from the requested URL; when the resolved URL field is
non-empty and `url.Parse` succeeds on it they are replaced by the canonical
URL's `String()` and `Host`; the remaining fields are resolved directly and
the record is stamped with the assembly time. -/
def buildResult (urlParse : String → Option Url) (requestURL : Url)
    (metas : List metaTag) (imgs : List Image) (now : Nat) : Result :=
  let uh : String × String :=
    let c := getMaxProperty metas "URL"
    if c = "" then (requestURL.str, requestURL.host)
    else
      match urlParse c with
      | some cu => (cu.str, cu.host)
      | none => (requestURL.str, requestURL.host)
  { url := uh.1, host := uh.2,
    site := getMaxProperty metas "Site",
    title := getMaxProperty metas "Title",
    type := getMaxProperty metas "Type",
    description := getMaxProperty metas "Description",
    author := getMaxProperty metas "Author",
    publisher := getMaxProperty metas "Publisher",
    images := imgs, scraped := now }

/-- `Parser.getHTML`: build the request (`urlOf` is `http.NewRequest`'s URL
parsing; `none` is a request-creation error), issue it (`fetchPage` models
`client.Do`; `.error` is a transport error), and treat any status outside
[200, 300) as an error. -/
def getHTMLModel (urlOf : String → Option Url)
    (fetchPage : String → Except String PageResponse) (url : String) :
    Except String (Url × PageResponse) :=
  match urlOf url with
  | none => .error ("error creating request, url: " ++ url)
  | some requestURL =>
    match fetchPage url with
    | .error e => .error ("http error: " ++ e ++ ", url: " ++ url)
    | .ok resp =>
      if resp.statusCode < 200 ∨ 300 ≤ resp.statusCode then
        .error ("http error: " ++ resp.status ++ ", url: " ++ url)
      else .ok (requestURL, resp)

/-- The current `Parser.Parse`: fetch the page, tokenize it, analyze the
discovered images and assemble the result.  Mirrors Go's
`(Result, error)` pair: a failure yields the zero `Result{}` and a wrapped
error message. -/
def ParseModel (urlOf : String → Option Url)
    (fetchPage : String → Except String PageResponse) (env : Env) (opt : ℚ)
    (now : Nat) (urlParse : String → Option Url) (url : String) :
    Result × Option String :=
  match getHTMLModel urlOf fetchPage url with
  | .error e => (zeroResult, some ("get html: " ++ e))
  | .ok (requestURL, resp) =>
    match tokenizeJob resp.body with
    | .error e => (zeroResult, some ("tokenize: " ++ e))
    | .ok msis =>
      let imgs := analyzeImagesModel env requestURL opt msis.2
      (buildResult urlParse requestURL msis.1 imgs now, none)

/-- Replace the body of every successful page response of `fetchPage` by `b`
(used to state that a failed parse never looks at the body). -/
def overrideBody (fetchPage : String → Except String PageResponse) (b : List Tok) :
    String → Except String PageResponse :=
  fun u => (fetchPage u).map (fun r => { r with body := b })

/-- An environment in which every image URL is malformed and every external
call fails (used for concrete counterexamples and witnesses). -/
def failEnv : Env :=
  { urlParse := fun _ => none, resolve := fun _ u => u, fetch := fun _ => none,
    b64decode := fun _ => none, decodeJPEG := fun _ => none,
    decodeGIF := fun _ => none, decodePNG := fun _ => none }

instance (opt : ℚ) : IsTotal Image (imgSortRel opt) :=
  ⟨by
    intro a b
    unfold imgSortRel
    cases ha : a.preferred <;> cases hb : b.preferred <;>
      simp [lessImg, ha, hb, not_lt] <;> exact le_total _ _⟩

instance (opt : ℚ) : IsTrans Image (imgSortRel opt) :=
  ⟨by
    intro a b c h1 h2
    unfold imgSortRel at h1 h2 ⊢
    cases ha : a.preferred <;> cases hb : b.preferred <;> cases hc : c.preferred <;>
      simp [lessImg, ha, hb, hc, not_lt] at h1 h2 ⊢ <;> exact le_trans h1 h2⟩

theorem lessImg_false_elim (opt : ℚ) (a b : Image) (h : lessImg opt b a = false) :
    (b.preferred = true → a.preferred = true) ∧
      (a.preferred = b.preferred → |a.aspectRatio - opt| ≤ |b.aspectRatio - opt|) := by
  cases ha : a.preferred <;> cases hb : b.preferred <;>
    simp [lessImg, ha, hb, not_lt] at h ⊢ <;> exact h

theorem sortImages_pairwise (opt : ℚ) (l : List Image) :
    List.Pairwise
      (fun a b => (b.preferred = true → a.preferred = true) ∧
        (a.preferred = b.preferred → |a.aspectRatio - opt| ≤ |b.aspectRatio - opt|))
      (sortImages opt l) := by
  have hs : List.Sorted (imgSortRel opt) (sortImages opt l) :=
    List.sorted_insertionSort (imgSortRel opt) l
  exact List.Pairwise.imp (fun h => lessImg_false_elim opt _ _ h) hs

/-- C2: in every image list produced by the pipeline, every `preferred=true`
entry precedes every `preferred=false` entry (pairwise: a later entry being
preferred forces every earlier entry to be preferred), and entries in the
same preferred tier appear in non-decreasing order of the absolute distance
between their aspect ratio and the configured optimal aspect ratio. -/
theorem images_ranking_law (env : Env) (base : Url) (opt : ℚ) (tags : List imgTag) :
    List.Pairwise
      (fun a b => (b.preferred = true → a.preferred = true) ∧
        (a.preferred = b.preferred → |a.aspectRatio - opt| ≤ |b.aspectRatio - opt|))
      (analyzeImagesModel env base opt tags) :=
  sortImages_pairwise opt _

/-- C3: evaluation of the two collection loops at the failing trace.  After
one image reference is launched and the deadline timer fires with no result
yet received, the current loop (whose `break` only exits the `select`)
consumes the timer event and goes back to blocking on the completion
channel, while the legacy loop — implementing the specified behavior —
terminates at once. -/
theorem timer_break_does_not_exit_loop :
    collectCurrent 1 [Event.timer] [] = Outcome.blocked [] ∧
      collectLegacy 1 [Event.timer] [] = Outcome.finished [] :=
  ⟨rfl, rfl⟩

/-- C9: for every produced image descriptor, of every content type, the
aspect ratio equals width divided by height whenever the height is positive
and is the zero sentinel whenever the height is zero. -/
theorem aspect_ratio_law (env : Env) (pin : parsedImage) :
    (0 < (exportImage env pin).height →
      (exportImage env pin).aspectRatio =
        ((exportImage env pin).width : ℚ) / ((exportImage env pin).height : ℚ)) ∧
    ((exportImage env pin).height = 0 → (exportImage env pin).aspectRatio = 0) := by
  have hr : (exportImage env pin).aspectRatio =
      if 0 < (exportImage env pin).height then
        ((exportImage env pin).width : ℚ) / ((exportImage env pin).height : ℚ)
      else 0 := rfl
  constructor
  · intro h
    rw [hr, if_pos h]
  · intro h
    rw [hr, if_neg (by omega)]

theorem aspect_ratio_law_witness :
    (0 <
        (exportImage
          { failEnv with decodePNG := fun _ => some (4, 2) }
          { zeroParsedImage with contentType := "image/png" }).height →
      (exportImage { failEnv with decodePNG := fun _ => some (4, 2) }
            { zeroParsedImage with contentType := "image/png" }).aspectRatio =
        ((exportImage { failEnv with decodePNG := fun _ => some (4, 2) }
            { zeroParsedImage with contentType := "image/png" }).width : ℚ) /
          ((exportImage { failEnv with decodePNG := fun _ => some (4, 2) }
            { zeroParsedImage with contentType := "image/png" }).height : ℚ)) ∧
    (0 : ℚ) ≠ 2 := by
  refine ⟨(aspect_ratio_law { failEnv with decodePNG := fun _ => some (4, 2) }
    { zeroParsedImage with contentType := "image/png" }).1, by norm_num⟩

/-- C4 counterexample: a single image reference whose source URL cannot be
resolved is NOT absent from the returned list — the failed worker sends the
zero `parsedImage{}`, the collector exports it, and the pipeline returns one
all-zero descriptor instead of the empty list. -/
theorem dropped_reference_contributes_entry_cex :
    analyzeImagesModel failEnv { str := "http://example.com/", host := "example.com" }
        (191/100) [{ url := "http://example.com/a.jpg", alt := "", preferred := false }] =
      [{ url := "", type := "", width := 0, height := 0, alt := "", aspectRatio := 0,
         preferred := false }] ∧
    analyzeImagesModel failEnv { str := "http://example.com/", host := "example.com" }
        (191/100) [{ url := "http://example.com/a.jpg", alt := "", preferred := false }] ≠
      [] :=
  ⟨rfl, by decide⟩

theorem one_le_workerSends_length (env : Env) (base : Url) (tag : imgTag) :
    1 ≤ (workerSends env base tag).length := by
  unfold workerSends
  cases env.urlParse tag.url with
  | none => simp
  | some u0 =>
    simp only []
    split
    · split <;> simp
    · split <;> simp

theorem workerSends_shape (env : Env) (base : Url) (tag : imgTag) :
    (workerSends env base tag).length = 1 ∨
      workerSends env base tag = [zeroParsedImage, zeroParsedImage] := by
  unfold workerSends
  cases env.urlParse tag.url with
  | none => exact Or.inl rfl
  | some u0 =>
    simp only []
    split
    · split
      · exact Or.inr rfl
      · exact Or.inl rfl
    · split
      · exact Or.inl rfl
      · exact Or.inl rfl

theorem take_flatten_mem {α : Type} (z : α) :
    ∀ (Ls : List (List α)),
      (∀ L ∈ Ls, L.length = 1 ∨ L = [z, z]) →
      (∃ L ∈ Ls, z ∈ L) →
      z ∈ Ls.flatten.take Ls.length := by
  intro Ls
  induction Ls with
  | nil =>
    rintro _ ⟨L, hL, -⟩
    exact absurd hL (List.not_mem_nil L)
  | cons L Ls' ih =>
    rintro hall ⟨L0, hL0, hz0⟩
    rw [List.flatten_cons, List.length_cons]
    rcases hall L (by simp) with h1 | h2
    · rw [List.take_append_eq_append_take]
      rcases List.mem_cons.mp hL0 with rfl | hmem
      · apply List.mem_append_left
        rw [List.take_of_length_le (by omega)]
        exact hz0
      · apply List.mem_append_right
        rw [h1]
        have he : Ls'.length + 1 - 1 = Ls'.length := by omega
        rw [he]
        exact ih (fun L' h' => hall L' (List.mem_cons_of_mem _ h')) ⟨L0, hmem, hz0⟩
    · rw [h2]
      show z ∈ ((z :: [z]) ++ Ls'.flatten).take (Ls'.length + 1)
      rw [List.cons_append, List.take_succ_cons]
      exact List.mem_cons_self _ _

/-- C4 as amended: the image pipeline never returns an error (it is a total
function into image lists), but an image reference that cannot be resolved
is NOT absent from the returned list: failed workers send the zero
`parsedImage{}` on the completion channel (twice on a failed data-URL
decode, whose error branch lacks a `return`), the collector exports every
received value, so the returned list always has exactly as many entries as
launched references, and whenever some reference fails, the output contains
the exported zero-valued placeholder descriptor.  (The placeholder entries
need not be in one-to-one correspondence with the failed references: a
double-sending data-URL failure can displace a later worker's result.) -/
theorem pipeline_never_fails_placeholder_entries (env : Env) (base : Url) (opt : ℚ)
    (tags : List imgTag) :
    (analyzeImagesModel env base opt tags).length = tags.length ∧
    ((∃ tag ∈ tags, zeroParsedImage ∈ workerSends env base tag) →
      exportImage env zeroParsedImage ∈ analyzeImagesModel env base opt tags) := by
  constructor
  · unfold analyzeImagesModel sortImages
    rw [List.length_insertionSort, List.length_map, List.length_take]
    have hlen : tags.length ≤ ((tags.map (workerSends env base)).flatten).length := by
      rw [List.length_flatten]
      induction tags with
      | nil => simp
      | cons t ts ih =>
        simp only [List.map_cons, List.map_map, List.sum_cons, List.length_cons]
        have h1 := one_le_workerSends_length env base t
        simp only [List.map_map] at ih
        omega
    omega
  · rintro ⟨tag, htag, hz⟩
    unfold analyzeImagesModel sortImages
    rw [List.mem_insertionSort]
    apply List.mem_map_of_mem
    have hlen : tags.length = (tags.map (workerSends env base)).length :=
      (List.length_map _ _).symm
    rw [hlen]
    apply take_flatten_mem
    · intro L hL
      obtain ⟨t, ht, rfl⟩ := List.mem_map.mp hL
      exact workerSends_shape env base t
    · exact ⟨workerSends env base tag, List.mem_map_of_mem _ htag, hz⟩

theorem pipeline_never_fails_placeholder_entries_witness :
    (analyzeImagesModel failEnv { str := "http://example.com/", host := "example.com" }
        (191/100) [{ url := "http://example.com/a.jpg", alt := "", preferred := false }]).length =
      1 ∧
    exportImage failEnv zeroParsedImage ∈
      analyzeImagesModel failEnv { str := "http://example.com/", host := "example.com" }
        (191/100) [{ url := "http://example.com/a.jpg", alt := "", preferred := false }] := by
  have h := pipeline_never_fails_placeholder_entries failEnv
    { str := "http://example.com/", host := "example.com" } (191/100)
    [{ url := "http://example.com/a.jpg", alt := "", preferred := false }]
  exact ⟨h.1, h.2 ⟨{ url := "http://example.com/a.jpg", alt := "", preferred := false },
    by decide, by decide⟩⟩

/-- C6: a page fetch that yields a transport error or a non-2xx status is
fatal: `Parse` returns the zero result together with an error, and the
outcome is independent of the response body (no tokenization) and of the
image environment and remaining inputs (no image analysis). -/
theorem page_fetch_failure_fatal (urlOf : String → Option Url)
    (fetchPage : String → Except String PageResponse) (url : String)
    (h : (∃ m, fetchPage url = .error m) ∨
      (∃ r, fetchPage url = .ok r ∧ (r.statusCode < 200 ∨ 300 ≤ r.statusCode))) :
    ∀ env opt now urlParse b env' opt' now' urlParse',
      (ParseModel urlOf fetchPage env opt now urlParse url).1 = zeroResult ∧
      ((ParseModel urlOf fetchPage env opt now urlParse url).2).isSome = true ∧
      ParseModel urlOf (overrideBody fetchPage b) env' opt' now' urlParse' url =
        ParseModel urlOf fetchPage env opt now urlParse url := by
  intro env opt now urlParse b env' opt' now' urlParse'
  cases hu : urlOf url with
  | none => simp [ParseModel, getHTMLModel, overrideBody, hu]
  | some ru =>
    rcases h with ⟨m, hm⟩ | ⟨r, hr, hs⟩
    · have h1 : getHTMLModel urlOf fetchPage url =
          .error ("http error: " ++ m ++ ", url: " ++ url) := by
        unfold getHTMLModel
        rw [hu, hm]
      have h2 : getHTMLModel urlOf (overrideBody fetchPage b) url =
          .error ("http error: " ++ m ++ ", url: " ++ url) := by
        unfold getHTMLModel overrideBody
        rw [hu, hm]
        rfl
      simp [ParseModel, h1, h2]
    · have h1 : getHTMLModel urlOf fetchPage url =
          .error ("http error: " ++ r.status ++ ", url: " ++ url) := by
        unfold getHTMLModel
        rw [hu, hr]
        show (if r.statusCode < 200 ∨ 300 ≤ r.statusCode then _ else _) = _
        rw [if_pos hs]
      have h2 : getHTMLModel urlOf (overrideBody fetchPage b) url =
          .error ("http error: " ++ r.status ++ ", url: " ++ url) := by
        unfold getHTMLModel overrideBody
        rw [hu, hr]
        show (if r.statusCode < 200 ∨ 300 ≤ r.statusCode then _ else _) = _
        rw [if_pos hs]
      simp [ParseModel, h1, h2]

theorem page_fetch_failure_fatal_witness :
    (ParseModel (fun s => some { str := s, host := "example.com" })
        (fun _ => .ok { statusCode := 404, status := "404 Not Found", body := [] })
        failEnv (191/100) 0 (fun _ => none) "http://example.com/").1 = zeroResult ∧
    ((ParseModel (fun s => some { str := s, host := "example.com" })
        (fun _ => .ok { statusCode := 404, status := "404 Not Found", body := [] })
        failEnv (191/100) 0 (fun _ => none) "http://example.com/").2).isSome = true := by
  have h := page_fetch_failure_fatal (fun s => some { str := s, host := "example.com" })
    (fun _ => .ok { statusCode := 404, status := "404 Not Found", body := [] })
    "http://example.com/"
    (Or.inr ⟨{ statusCode := 404, status := "404 Not Found", body := [] }, rfl, by decide⟩)
    failEnv (191/100) 0 (fun _ => none) [] failEnv (191/100) 0 (fun _ => none)
  exact ⟨h.1, h.2.1⟩

/-- C7: when the URL field resolves to a non-empty string, the final result's
URL and Host come from the parsed canonical URL whenever `url.Parse`
succeeds on it (in particular whenever it is a well-formed absolute URL),
and fall back to the originally requested URL when parsing fails. -/
theorem canonical_url_override (urlParse : String → Option Url) (requestURL : Url)
    (metas : List metaTag) (imgs : List Image) (now : Nat)
    (h : getMaxProperty metas "URL" ≠ "") :
    (∀ cu, urlParse (getMaxProperty metas "URL") = some cu →
      (buildResult urlParse requestURL metas imgs now).url = cu.str ∧
      (buildResult urlParse requestURL metas imgs now).host = cu.host) ∧
    (urlParse (getMaxProperty metas "URL") = none →
      (buildResult urlParse requestURL metas imgs now).url = requestURL.str ∧
      (buildResult urlParse requestURL metas imgs now).host = requestURL.host) := by
  constructor
  · intro cu hcu
    constructor <;> simp [buildResult, h, hcu]
  · intro hn
    constructor <;> simp [buildResult, h, hn]

theorem canonical_url_override_witness :
    getMaxProperty [{ name := "og:url",
                      value := "https://canonical.example/x",
                      priority := 1 }] "URL" ≠ "" ∧
    (buildResult (fun s => some { str := s, host := "canonical.example" })
        { str := "http://req.example/", host := "req.example" }
        [{ name := "og:url", value := "https://canonical.example/x", priority := 1 }]
        [] 7).url = "https://canonical.example/x" := by
  refine ⟨by decide, ?_⟩
  exact ((canonical_url_override (fun s => some { str := s, host := "canonical.example" })
    { str := "http://req.example/", host := "req.example" }
    [{ name := "og:url", value := "https://canonical.example/x", priority := 1 }]
    [] 7 (by decide)).1
    { str := "https://canonical.example/x", host := "canonical.example" } rfl).1

theorem targeted_trim (v : String) (w : ℚ) (h : targetedProperties v = some w) :
    trimModel v = v ∧ registryWeight v = w := by
  unfold targetedProperties at h
  split at h <;>
    first
      | (injection h with h'
         subst h'
         exact ⟨by decide, by decide⟩)
      | exact Option.noConfusion h

theorem foldl_metaScanStep_consistent :
    ∀ (l : List (String × String)) (acc : String × String × ℚ),
      registryWeight acc.2.1 = acc.2.2 →
      registryWeight (l.foldl metaScanStep acc).2.1 = (l.foldl metaScanStep acc).2.2 := by
  intro l
  induction l with
  | nil => intro acc h; exact h
  | cons kv tl ih =>
    intro acc h
    rw [List.foldl_cons]
    apply ih
    unfold metaScanStep
    by_cases h1 : kv.1 = "property" ∨ kv.1 = "name"
    · rw [if_pos h1]
      cases hw : targetedProperties kv.2 with
      | none => exact h
      | some w =>
        obtain ⟨ht, hr⟩ := targeted_trim kv.2 w hw
        show registryWeight (trimModel kv.2) = w
        rw [ht]
        exact hr
    · rw [if_neg h1]
      by_cases h2 : kv.1 = "content"
      · rw [if_pos h2]
        exact h
      · rw [if_neg h2]
        exact h

theorem parseMeta_consistent (attrs : List (String × String)) :
    (parseMeta attrs).priority = registryWeight (parseMeta attrs).name := by
  unfold parseMeta
  split
  · exact (foldl_metaScanStep_consistent attrs ("", "", 0) (by decide)).symm
  · decide

theorem parseTitle_consistent (s : String) :
    (parseTitle s).priority = registryWeight (parseTitle s).name :=
  show half = registryWeight "title" by decide

theorem parseMeta_good (attrs : List (String × String)) : goodTag (parseMeta attrs) := by
  unfold goodTag parseMeta
  split
  · exact Or.inl (by assumption)
  · exact Or.inr rfl

theorem parseTitle_good (s : String) : goodTag (parseTitle s) :=
  Or.inl (show (0 : ℚ) < half by decide)

theorem all_append_one {P : metaTag → Prop} {ms : List metaTag} {t : metaTag}
    (h : ∀ c ∈ ms, P c) (ht : P t) : ∀ c ∈ ms ++ [t], P c := by
  intro c hc
  rcases List.mem_append.mp hc with h1 | h2
  · exact h c h1
  · simp only [List.mem_singleton] at h2
    exact h2 ▸ ht

theorem tokenizeGo_all (P : metaTag → Prop) (hm : ∀ attrs, P (parseMeta attrs))
    (ht : ∀ s, P (parseTitle s)) :
    ∀ toks ms is out,
      (∀ c ∈ ms, P c) →
      tokenizeGo toks ms is = .ok out →
      ∀ c ∈ out.1, P c := by
  intro toks ms is
  induction toks, ms, is using tokenizeGo.induct with
  | case1 ms is =>
    intro out h heq
    simp only [tokenizeGo] at heq
    injection heq with h2
    subst h2
    exact h
  | case2 e tail ms is =>
    intro out h heq
    simp only [tokenizeGo] at heq
    exact Except.noConfusion heq
  | case3 s rest ms is ih =>
    intro out h heq
    simp only [tokenizeGo] at heq
    exact ih out h heq
  | case4 attrs rest ms is res is' ih =>
    intro out h heq
    rw [tokenizeGo.eq_def] at heq
    simp only [reduceIte] at heq
    exact ih out (all_append_one h (hm attrs)) heq
  | case5 attrs rest ms is res hn ih =>
    intro out h heq
    rw [tokenizeGo.eq_def] at heq
    simp only [reduceIte] at heq
    exact ih out h heq
  | case6 attrs ms is s rest' h1 h2 ih =>
    intro out h heq
    rw [tokenizeGo.eq_def] at heq
    simp only [reduceIte] at heq
    exact ih out (all_append_one h (ht s)) heq
  | case7 attrs ms is e tail h1 h2 =>
    intro out h heq
    rw [tokenizeGo.eq_def] at heq
    simp only [reduceIte] at heq
    exact Except.noConfusion heq
  | case8 attrs ms is hd rest' hf hg h1 h2 ih =>
    intro out h heq
    rw [tokenizeGo.eq_def] at heq
    simp only [reduceIte] at heq
    exact ih out h heq
  | case9 attrs ms is h1 h2 =>
    intro out h heq
    rw [tokenizeGo.eq_def] at heq
    simp only [reduceIte] at heq
    injection heq with h2
    subst h2
    exact h
  | case10 name attrs rest ms is h1 h2 h3 ih =>
    intro out h heq
    rw [tokenizeGo.eq_def] at heq
    simp only [h1, h2, h3, reduceIte] at heq
    exact ih out h heq
  | case11 attrs rest ms is res is' ih =>
    intro out h heq
    rw [tokenizeGo.eq_def] at heq
    simp only [reduceIte] at heq
    exact ih out (all_append_one h (hm attrs)) heq
  | case12 attrs rest ms is res hn ih =>
    intro out h heq
    rw [tokenizeGo.eq_def] at heq
    simp only [reduceIte] at heq
    exact ih out h heq
  | case13 attrs ms is s rest' h1 h2 ih =>
    intro out h heq
    rw [tokenizeGo.eq_def] at heq
    simp only [reduceIte] at heq
    exact ih out (all_append_one h (ht s)) heq
  | case14 attrs ms is e tail h1 h2 =>
    intro out h heq
    rw [tokenizeGo.eq_def] at heq
    simp only [reduceIte] at heq
    exact Except.noConfusion heq
  | case15 attrs ms is hd rest' hf hg h1 h2 ih =>
    intro out h heq
    rw [tokenizeGo.eq_def] at heq
    simp only [reduceIte] at heq
    exact ih out h heq
  | case16 attrs ms is h1 h2 =>
    intro out h heq
    rw [tokenizeGo.eq_def] at heq
    simp only [reduceIte] at heq
    injection heq with h2
    subst h2
    exact h
  | case17 name attrs rest ms is h1 h2 h3 ih =>
    intro out h heq
    rw [tokenizeGo.eq_def] at heq
    simp only [h1, h2, h3, reduceIte] at heq
    exact ih out h heq

/-- C5 counterexample: a meta tag whose property attribute is not in the
Priority Registry still contributes a candidate to the candidate list — the
current extractor appends `parseMeta`'s zero result unconditionally, so the
recorded candidate has priority 0, not a nonzero priority. -/
theorem unrecognized_meta_recorded_cex :
    tokenizeJob [Tok.start "meta" [("property", "x-unknown"), ("content", "v")]] =
      .ok ([{ name := "", value := "", priority := 0 }], []) ∧
    ¬ (0 : ℚ) < ({ name := "", value := "", priority := 0 } : metaTag).priority :=
  ⟨rfl, by norm_num⟩

/-- C5 as amended: the current extractor records a candidate for every meta
tag event; a tag with no recognized identifier contributes the zero
candidate (empty identifier, empty value, priority 0) rather than no
candidate, so every recorded candidate either has positive priority or is
that zero candidate. -/
theorem recorded_candidate_positive_or_zero (toks : List Tok) (ms : List metaTag)
    (is : List imgTag) (h : tokenizeJob toks = .ok (ms, is)) :
    ∀ c ∈ ms, 0 < c.priority ∨ c = { name := "", value := "", priority := 0 } :=
  tokenizeGo_all goodTag parseMeta_good parseTitle_good toks [] [] (ms, is) (by simp) h

theorem recorded_candidate_positive_or_zero_witness :
    0 < ({ name := "", value := "", priority := 0 } : metaTag).priority ∨
      ({ name := "", value := "", priority := 0 } : metaTag) =
        { name := "", value := "", priority := 0 } :=
  recorded_candidate_positive_or_zero
    [Tok.start "meta" [("property", "x-unknown"), ("content", "v")]]
    [{ name := "", value := "", priority := 0 }] [] rfl
    { name := "", value := "", priority := 0 } (by simp)

/-- C10: a registry-recognized meta tag with no content attribute records a
candidate with an empty value, and the resolver — selecting purely by
priority — then resolves the field to the empty string even though a
lower-priority eligible candidate with a non-empty value exists. -/
theorem empty_content_shadows_lower_priority :
    tokenizeJob [Tok.start "meta" [("property", "og:title")], Tok.start "title" [],
        Tok.text "B"] =
      .ok ([{ name := "og:title", value := "", priority := 1 },
            { name := "title", value := "B", priority := half }], []) ∧
    getMaxProperty [{ name := "og:title", value := "", priority := 1 },
                    { name := "title", value := "B", priority := half }] "Title" = "" ∧
    ∃ c ∈ [({ name := "og:title", value := "", priority := 1 } : metaTag),
           { name := "title", value := "B", priority := half }],
      c.name ∈ propertyMap "Title" ∧ c.value ≠ "" := by
  refine ⟨rfl, rfl, ⟨{ name := "title", value := "B", priority := half }, by simp, ?_, ?_⟩⟩
  · simp [propertyMap]
  · simp

theorem find?_decomp {α : Type} (p : α → Bool) :
    ∀ (l : List α) (a : α), l.find? p = some a →
      p a = true ∧ ∃ l1 l2, l = l1 ++ a :: l2 ∧ ∀ x ∈ l1, p x = false := by
  intro l
  induction l with
  | nil => intro a h; exact Option.noConfusion h
  | cons x xs ih =>
    intro a h
    by_cases hx : p x = true
    · rw [List.find?_cons_of_pos _ hx] at h
      injection h with h'
      subst h'
      exact ⟨hx, [], xs, rfl, by simp⟩
    · rw [List.find?_cons_of_neg _ (by simpa using hx)] at h
      obtain ⟨hpa, l1, l2, hsplit, hl1⟩ := ih a h
      refine ⟨hpa, x :: l1, l2, by simp [hsplit], ?_⟩
      intro y hy
      rcases List.mem_cons.mp hy with hy | hy
      · subst hy
        exact Bool.not_eq_true _ ▸ hx
      · exact hl1 y hy

theorem foldl_resolveStep_stall (n : String) (p : ℚ) :
    ∀ (tags : List metaTag), (∀ t ∈ tags, t.name = n → t.priority = p) →
      ∀ (v : String) (w : ℚ), ¬ w < p →
      tags.foldl (resolveStep n) (v, w) = (v, w) := by
  intro tags
  induction tags with
  | nil => intro _ v w _; rfl
  | cons t ts ih =>
    intro h v w hw
    have hstep : resolveStep n (v, w) t = (v, w) := by
      unfold resolveStep
      by_cases hn : t.name = n
      · rw [if_neg]
        rintro ⟨-, hlt⟩
        rw [h t (by simp) hn] at hlt
        exact hw hlt
      · rw [if_neg]
        rintro ⟨h', -⟩
        exact hn h'
    rw [List.foldl_cons, hstep]
    exact ih (fun u hu hn => h u (List.mem_cons_of_mem _ hu) hn) v w hw

theorem foldl_resolveStep_find (n : String) (p : ℚ) :
    ∀ (tags : List metaTag), (∀ t ∈ tags, t.name = n → t.priority = p) →
      ∀ (v : String) (w : ℚ),
      tags.foldl (resolveStep n) (v, w) =
        match tags.find? (fun t => decide (t.name = n)) with
        | none => (v, w)
        | some a => if w < p then (a.value, p) else (v, w) := by
  intro tags
  induction tags with
  | nil => intro _ v w; rfl
  | cons t ts ih =>
    intro h v w
    have hrest : ∀ u ∈ ts, u.name = n → u.priority = p :=
      fun u hu h' => h u (List.mem_cons_of_mem _ hu) h'
    by_cases hn : t.name = n
    · have hp : t.priority = p := h t (by simp) hn
      have hfind : (t :: ts).find? (fun t => decide (t.name = n)) = some t :=
        List.find?_cons_of_pos _ (by simp [hn])
      rw [hfind]
      show List.foldl (resolveStep n) (v, w) (t :: ts) =
        if w < p then (t.value, p) else (v, w)
      by_cases hw : w < p
      · have hstep : resolveStep n (v, w) t = (t.value, p) := by
          unfold resolveStep
          rw [if_pos ⟨hn, by rw [hp]; exact hw⟩, hp]
        rw [List.foldl_cons, hstep, if_pos hw]
        exact foldl_resolveStep_stall n p ts hrest t.value p (lt_irrefl p)
      · have hstep : resolveStep n (v, w) t = (v, w) := by
          unfold resolveStep
          rw [if_neg]
          rintro ⟨-, hlt⟩
          rw [hp] at hlt
          exact hw hlt
        rw [List.foldl_cons, hstep, if_neg hw]
        exact foldl_resolveStep_stall n p ts hrest v w hw
    · have hstep : resolveStep n (v, w) t = (v, w) := by
        unfold resolveStep
        rw [if_neg]
        rintro ⟨h', -⟩
        exact hn h'
      have hfind : (t :: ts).find? (fun t => decide (t.name = n)) =
          ts.find? (fun t => decide (t.name = n)) :=
        List.find?_cons_of_neg _ (by simp [hn])
      rw [List.foldl_cons, hstep, hfind]
      exact ih hrest v w

theorem resolve_single (key n1 : String) (hmap : propertyMap key = [n1])
    (hw1 : registryWeight n1 = 1) (tags : List metaTag) (hc : consistent tags) :
    (eligibles key tags = [] ∧ getMaxProperty tags key = "") ∨
    ∃ pre t post, eligibles key tags = pre ++ t :: post ∧
      getMaxProperty tags key = t.value ∧
      (∀ u ∈ pre, u.priority < t.priority) ∧
      (∀ u ∈ eligibles key tags, u.priority ≤ t.priority) := by
  have h1 : ∀ t ∈ tags, t.name = n1 → t.priority = 1 := fun t ht hn => by
    rw [hc t ht, hn, hw1]
  have hgm : getMaxProperty tags key = (tags.foldl (resolveStep n1) ("", 0)).1 := by
    unfold getMaxProperty
    rw [hmap]
    rfl
  have hmem : ∀ t : metaTag, t.name ∈ propertyMap key ↔ t.name = n1 := by
    intro t
    rw [hmap]
    simp
  cases hf1 : tags.find? (fun t => decide (t.name = n1)) with
  | none =>
    have e1 : tags.foldl (resolveStep n1) ("", 0) = ("", 0) := by
      rw [foldl_resolveStep_find n1 1 tags h1 "" 0, hf1]
    have hval : getMaxProperty tags key = "" := by rw [hgm, e1]
    have hnone : ∀ t ∈ tags, ¬ t.name = n1 := fun t ht => by
      simpa using List.find?_eq_none.mp hf1 t ht
    have hel : eligibles key tags = [] := by
      rw [eligibles, List.filter_eq_nil_iff]
      intro u hu
      simp [hmem u, hnone u hu]
    exact Or.inl ⟨hel, hval⟩
  | some a =>
    have e1 : tags.foldl (resolveStep n1) ("", 0) = (a.value, 1) := by
      rw [foldl_resolveStep_find n1 1 tags h1 "" 0, hf1]
      show (if (0 : ℚ) < 1 then (a.value, (1 : ℚ)) else ("", 0)) = (a.value, 1)
      rw [if_pos (by decide : (0 : ℚ) < 1)]
    have hval : getMaxProperty tags key = a.value := by rw [hgm, e1]
    obtain ⟨hpa, l1, l2, hsplit, hl1⟩ := find?_decomp _ tags a hf1
    have han : a.name = n1 := by simpa using hpa
    have hamem : a ∈ tags := by
      rw [hsplit]
      exact List.mem_append_right _ (by simp)
    have hap : a.priority = 1 := h1 a hamem han
    have hfl1 : l1.filter (fun t => decide (t.name ∈ propertyMap key)) = [] := by
      rw [List.filter_eq_nil_iff]
      intro u hu
      have hne : ¬ u.name = n1 := by simpa using hl1 u hu
      simp [hmem u, hne]
    have he : eligibles key tags =
        [] ++ a :: l2.filter (fun t => decide (t.name ∈ propertyMap key)) := by
      rw [eligibles, hsplit, List.filter_append, hfl1, List.filter_cons,
        if_pos (by simp [(hmem a).mpr han])]
    refine Or.inr ⟨[], a, _, he, hval, by simp, ?_⟩
    intro u hu
    have hu' := List.mem_filter.mp hu
    have hun : u.name = n1 := (hmem u).mp (by simpa using hu'.2)
    rw [h1 u hu'.1 hun, hap]

theorem resolve_double (key n1 n2 : String) (hmap : propertyMap key = [n1, n2])
    (hw1 : registryWeight n1 = 1) (hw2 : registryWeight n2 = half)
    (tags : List metaTag) (hc : consistent tags) :
    (eligibles key tags = [] ∧ getMaxProperty tags key = "") ∨
    ∃ pre t post, eligibles key tags = pre ++ t :: post ∧
      getMaxProperty tags key = t.value ∧
      (∀ u ∈ pre, u.priority < t.priority) ∧
      (∀ u ∈ eligibles key tags, u.priority ≤ t.priority) := by
  have h1 : ∀ t ∈ tags, t.name = n1 → t.priority = 1 := fun t ht hn => by
    rw [hc t ht, hn, hw1]
  have h2 : ∀ t ∈ tags, t.name = n2 → t.priority = half := fun t ht hn => by
    rw [hc t ht, hn, hw2]
  have hgm : getMaxProperty tags key =
      (tags.foldl (resolveStep n2) (tags.foldl (resolveStep n1) ("", 0))).1 := by
    unfold getMaxProperty
    rw [hmap]
    rfl
  have hmem : ∀ t : metaTag, t.name ∈ propertyMap key ↔ t.name = n1 ∨ t.name = n2 := by
    intro t
    rw [hmap]
    simp
  have hple : ∀ u ∈ tags, u.name ∈ propertyMap key → u.priority ≤ 1 := by
    intro u hu hm
    rcases (hmem u).mp hm with h' | h'
    · rw [h1 u hu h']
    · rw [h2 u hu h']
      decide
  cases hf1 : tags.find? (fun t => decide (t.name = n1)) with
  | some a =>
    have e1 : tags.foldl (resolveStep n1) ("", 0) = (a.value, 1) := by
      rw [foldl_resolveStep_find n1 1 tags h1 "" 0, hf1]
      show (if (0 : ℚ) < 1 then (a.value, (1 : ℚ)) else ("", 0)) = (a.value, 1)
      rw [if_pos (by decide : (0 : ℚ) < 1)]
    have e2 : tags.foldl (resolveStep n2) (a.value, 1) = (a.value, 1) :=
      foldl_resolveStep_stall n2 half tags h2 a.value 1 (by decide)
    have hval : getMaxProperty tags key = a.value := by rw [hgm, e1, e2]
    obtain ⟨hpa, l1, l2, hsplit, hl1⟩ := find?_decomp _ tags a hf1
    have han : a.name = n1 := by simpa using hpa
    have hamem : a ∈ tags := by
      rw [hsplit]
      exact List.mem_append_right _ (by simp)
    have hap : a.priority = 1 := h1 a hamem han
    have he : eligibles key tags =
        l1.filter (fun t => decide (t.name ∈ propertyMap key)) ++
          a :: l2.filter (fun t => decide (t.name ∈ propertyMap key)) := by
      rw [eligibles, hsplit, List.filter_append, List.filter_cons,
        if_pos (by simp [(hmem a).mpr (Or.inl han)])]
    refine Or.inr ⟨l1.filter (fun t => decide (t.name ∈ propertyMap key)), a,
      l2.filter (fun t => decide (t.name ∈ propertyMap key)), he, hval, ?_, ?_⟩
    · intro u hu
      have hu' := List.mem_filter.mp hu
      have humem : u ∈ tags := by
        rw [hsplit]
        exact List.mem_append_left _ hu'.1
      have hne : ¬ u.name = n1 := by simpa using hl1 u hu'.1
      have hun2 : u.name = n2 := by
        rcases (hmem u).mp (by simpa using hu'.2) with h' | h'
        · exact absurd h' hne
        · exact h'
      rw [h2 u humem hun2, hap]
      decide
    · intro u hu
      have hu' := List.mem_filter.mp hu
      rw [hap]
      exact hple u hu'.1 (by simpa using hu'.2)
  | none =>
    have hnone1 : ∀ t ∈ tags, ¬ t.name = n1 := fun t ht => by
      simpa using List.find?_eq_none.mp hf1 t ht
    have e1 : tags.foldl (resolveStep n1) ("", 0) = ("", 0) := by
      rw [foldl_resolveStep_find n1 1 tags h1 "" 0, hf1]
    cases hf2 : tags.find? (fun t => decide (t.name = n2)) with
    | some b =>
      have e2 : tags.foldl (resolveStep n2) ("", 0) = (b.value, half) := by
        rw [foldl_resolveStep_find n2 half tags h2 "" 0, hf2]
        show (if (0 : ℚ) < half then (b.value, half) else ("", 0)) = (b.value, half)
        rw [if_pos (by decide : (0 : ℚ) < half)]
      have hval : getMaxProperty tags key = b.value := by rw [hgm, e1, e2]
      obtain ⟨hpb, l1, l2, hsplit, hl1⟩ := find?_decomp _ tags b hf2
      have hbn : b.name = n2 := by simpa using hpb
      have hbmem : b ∈ tags := by
        rw [hsplit]
        exact List.mem_append_right _ (by simp)
      have hbp : b.priority = half := h2 b hbmem hbn
      have hfl1 : l1.filter (fun t => decide (t.name ∈ propertyMap key)) = [] := by
        rw [List.filter_eq_nil_iff]
        intro u hu
        have humem : u ∈ tags := by
          rw [hsplit]
          exact List.mem_append_left _ hu
        have hne2 : ¬ u.name = n2 := by simpa using hl1 u hu
        simp [hmem u, hnone1 u humem, hne2]
      have he : eligibles key tags =
          [] ++ b :: l2.filter (fun t => decide (t.name ∈ propertyMap key)) := by
        rw [eligibles, hsplit, List.filter_append, hfl1, List.filter_cons,
          if_pos (by simp [(hmem b).mpr (Or.inr hbn)])]
      refine Or.inr ⟨[], b, _, he, hval, by simp, ?_⟩
      intro u hu
      have hu' := List.mem_filter.mp hu
      have hun2 : u.name = n2 := by
        rcases (hmem u).mp (by simpa using hu'.2) with h' | h'
        · exact absurd h' (hnone1 u hu'.1)
        · exact h'
      rw [h2 u hu'.1 hun2, hbp]
    | none =>
      have e2 : tags.foldl (resolveStep n2) ("", 0) = ("", 0) := by
        rw [foldl_resolveStep_find n2 half tags h2 "" 0, hf2]
      have hval : getMaxProperty tags key = "" := by rw [hgm, e1, e2]
      have hel : eligibles key tags = [] := by
        rw [eligibles, List.filter_eq_nil_iff]
        intro u hu
        have hne2 : ¬ u.name = n2 := by simpa using List.find?_eq_none.mp hf2 u hu
        simp [hmem u, hnone1 u hu, hne2]
      exact Or.inl ⟨hel, hval⟩

/-- C1: for every candidate list produced by the extractor and every logical
field, `getMaxProperty` returns the empty string when no candidate's
identifier is in the field's eligible list, and otherwise returns the value
of an eligible candidate of maximal priority such that every eligible
candidate seen earlier in extraction order has strictly smaller priority
(so on equal priorities the earlier candidate is the one retained). -/
theorem resolver_max_priority_first_seen (toks : List Tok) (tags : List metaTag)
    (is : List imgTag) (hex : tokenizeJob toks = .ok (tags, is)) (key : String)
    (hkey : key ∈ ["URL", "Site", "Title", "Type", "Description", "Author", "Publisher"]) :
    (eligibles key tags = [] ∧ getMaxProperty tags key = "") ∨
    ∃ pre t post, eligibles key tags = pre ++ t :: post ∧
      getMaxProperty tags key = t.value ∧
      (∀ u ∈ pre, u.priority < t.priority) ∧
      (∀ u ∈ eligibles key tags, u.priority ≤ t.priority) := by
  have hc : consistent tags :=
    tokenizeGo_all (fun c => c.priority = registryWeight c.name)
      parseMeta_consistent parseTitle_consistent toks [] [] (tags, is) (by simp) hex
  fin_cases hkey
  · exact resolve_single "URL" "og:url" rfl (by decide) tags hc
  · exact resolve_double "Site" "og:site_name" "site_name" rfl (by decide) (by decide) tags hc
  · exact resolve_double "Title" "og:title" "title" rfl (by decide) (by decide) tags hc
  · exact resolve_double "Type" "og:type" "type" rfl (by decide) (by decide) tags hc
  · exact resolve_double "Description" "og:description" "description" rfl (by decide)
      (by decide) tags hc
  · exact resolve_double "Author" "og:author" "author" rfl (by decide) (by decide) tags hc
  · exact resolve_double "Publisher" "og:publisher" "publisher" rfl (by decide)
      (by decide) tags hc

theorem resolver_max_priority_first_seen_witness :
    (eligibles "Title" [{ name := "title", value := "B", priority := half },
        { name := "og:title", value := "A", priority := 1 }] = [] ∧
      getMaxProperty [{ name := "title", value := "B", priority := half },
        { name := "og:title", value := "A", priority := 1 }] "Title" = "") ∨
    ∃ pre t post,
      eligibles "Title" [{ name := "title", value := "B", priority := half },
        { name := "og:title", value := "A", priority := 1 }] = pre ++ t :: post ∧
      getMaxProperty [{ name := "title", value := "B", priority := half },
        { name := "og:title", value := "A", priority := 1 }] "Title" = t.value ∧
      (∀ u ∈ pre, u.priority < t.priority) ∧
      (∀ u ∈ eligibles "Title" [{ name := "title", value := "B", priority := half },
        { name := "og:title", value := "A", priority := 1 }], u.priority ≤ t.priority) :=
  resolver_max_priority_first_seen
    [Tok.start "title" [], Tok.text "B",
      Tok.selfClosing "meta" [("property", "og:title"), ("content", "A")]]
    [{ name := "title", value := "B", priority := half },
      { name := "og:title", value := "A", priority := 1 }]
    [] rfl "Title" (by decide)

theorem filter_append_if (c1 c2 : ℚ) (h : c1 ≤ c2) (ms : List metaTag) (res : metaTag) :
    (if c2 < res.priority then
        ms.filter (fun t => decide (c2 < t.priority)) ++ [res]
      else ms.filter (fun t => decide (c2 < t.priority))) =
      (if c1 < res.priority then ms ++ [res] else ms).filter
        (fun t => decide (c2 < t.priority)) := by
  by_cases hc2 : c2 < res.priority
  · rw [if_pos hc2, if_pos (lt_of_le_of_lt h hc2), List.filter_append]
    simp [hc2]
  · by_cases hc1 : c1 < res.priority
    · rw [if_neg hc2, if_pos hc1, List.filter_append]
      simp [hc2]
    · rw [if_neg hc2, if_neg hc1]

theorem tokenizeLegacyGo_filter (c1 c2 : ℚ) (h : c1 ≤ c2) :
    ∀ toks ms is,
      tokenizeLegacyGo c2 toks (ms.filter (fun t => decide (c2 < t.priority))) is =
        (tokenizeLegacyGo c1 toks ms is).map
          (fun out => (out.1.filter (fun t => decide (c2 < t.priority)), out.2)) := by
  intro toks ms is
  induction toks, ms, is using tokenizeLegacyGo.induct c1 with
  | case1 ms is => rfl
  | case2 e tail ms is => rfl
  | case3 s rest ms is ih =>
    conv_lhs => rw [tokenizeLegacyGo.eq_def]
    conv_rhs => rw [tokenizeLegacyGo.eq_def]
    simp only [String.reduceEq, reduceIte]
    exact ih
  | case4 attrs rest ms is res ih =>
    conv_lhs => rw [tokenizeLegacyGo.eq_def]
    conv_rhs => rw [tokenizeLegacyGo.eq_def]
    simp only [String.reduceEq, reduceIte]
    rw [filter_append_if c1 c2 h ms (parseMetaLegacy attrs)]
    exact ih
  | case5 attrs rest ms is res hn ih =>
    conv_lhs => rw [tokenizeLegacyGo.eq_def]
    conv_rhs => rw [tokenizeLegacyGo.eq_def]
    simp only [String.reduceEq, reduceIte]
    exact ih
  | case6 attrs ms is s rest' h1 h2 ih =>
    conv_lhs => rw [tokenizeLegacyGo.eq_def]
    conv_rhs => rw [tokenizeLegacyGo.eq_def]
    simp only [String.reduceEq, reduceIte]
    rw [filter_append_if c1 c2 h ms (parseTitle s)]
    exact ih
  | case7 attrs ms is e tail h1 h2 =>
    conv_lhs => rw [tokenizeLegacyGo.eq_def]
    conv_rhs => rw [tokenizeLegacyGo.eq_def]
    simp only [String.reduceEq, reduceIte]
    rfl
  | case8 attrs ms is hd rest' hf hg h1 h2 ih =>
    conv_lhs => rw [tokenizeLegacyGo.eq_def]
    conv_rhs => rw [tokenizeLegacyGo.eq_def]
    simp only [String.reduceEq, reduceIte]
    exact ih
  | case9 attrs ms is h1 h2 =>
    conv_lhs => rw [tokenizeLegacyGo.eq_def]
    conv_rhs => rw [tokenizeLegacyGo.eq_def]
    simp only [String.reduceEq, reduceIte]
    rfl
  | case10 name attrs rest ms is h1 h2 h3 ih =>
    conv_lhs => rw [tokenizeLegacyGo.eq_def]
    conv_rhs => rw [tokenizeLegacyGo.eq_def]
    simp only [h1, h2, h3, String.reduceEq, reduceIte]
    exact ih
  | case11 attrs rest ms is res ih =>
    conv_lhs => rw [tokenizeLegacyGo.eq_def]
    conv_rhs => rw [tokenizeLegacyGo.eq_def]
    simp only [String.reduceEq, reduceIte]
    rw [filter_append_if c1 c2 h ms (parseMetaLegacy attrs)]
    exact ih
  | case12 attrs rest ms is res hn ih =>
    conv_lhs => rw [tokenizeLegacyGo.eq_def]
    conv_rhs => rw [tokenizeLegacyGo.eq_def]
    simp only [String.reduceEq, reduceIte]
    exact ih
  | case13 attrs ms is s rest' h1 h2 ih =>
    conv_lhs => rw [tokenizeLegacyGo.eq_def]
    conv_rhs => rw [tokenizeLegacyGo.eq_def]
    simp only [String.reduceEq, reduceIte]
    rw [filter_append_if c1 c2 h ms (parseTitle s)]
    exact ih
  | case14 attrs ms is e tail h1 h2 =>
    conv_lhs => rw [tokenizeLegacyGo.eq_def]
    conv_rhs => rw [tokenizeLegacyGo.eq_def]
    simp only [String.reduceEq, reduceIte]
    rfl
  | case15 attrs ms is hd rest' hf hg h1 h2 ih =>
    conv_lhs => rw [tokenizeLegacyGo.eq_def]
    conv_rhs => rw [tokenizeLegacyGo.eq_def]
    simp only [String.reduceEq, reduceIte]
    exact ih
  | case16 attrs ms is h1 h2 =>
    conv_lhs => rw [tokenizeLegacyGo.eq_def]
    conv_rhs => rw [tokenizeLegacyGo.eq_def]
    simp only [String.reduceEq, reduceIte]
    rfl
  | case17 name attrs rest ms is h1 h2 h3 ih =>
    conv_lhs => rw [tokenizeLegacyGo.eq_def]
    conv_rhs => rw [tokenizeLegacyGo.eq_def]
    simp only [h1, h2, h3, String.reduceEq, reduceIte]
    exact ih

theorem foldl_resolveStep_mem (n : String) :
    ∀ (tags : List metaTag) (acc : String × ℚ),
      tags.foldl (resolveStep n) acc = acc ∨
      ∃ t ∈ tags, t.name = n ∧ tags.foldl (resolveStep n) acc = (t.value, t.priority) := by
  intro tags
  induction tags with
  | nil => intro acc; exact Or.inl rfl
  | cons t ts ih =>
    intro acc
    rw [List.foldl_cons]
    have hstep : resolveStep n acc t = acc ∨
        (t.name = n ∧ resolveStep n acc t = (t.value, t.priority)) := by
      unfold resolveStep
      split
      · next hcond => exact Or.inr ⟨hcond.1, rfl⟩
      · exact Or.inl rfl
    rcases ih (resolveStep n acc t) with hf | ⟨u, hu, hun, hfu⟩
    · rcases hstep with hs | ⟨hn, hs⟩
      · exact Or.inl (by rw [hf, hs])
      · exact Or.inr ⟨t, by simp, hn, by rw [hf, hs]⟩
    · exact Or.inr ⟨u, List.mem_cons_of_mem _ hu, hun, hfu⟩

theorem foldl_outer_mem (tags : List metaTag) :
    ∀ (names : List String) (acc : String × ℚ),
      names.foldl (fun acc st => tags.foldl (resolveStep st) acc) acc = acc ∨
      ∃ t ∈ tags, t.name ∈ names ∧
        names.foldl (fun acc st => tags.foldl (resolveStep st) acc) acc =
          (t.value, t.priority) := by
  intro names
  induction names with
  | nil => intro acc; exact Or.inl rfl
  | cons st sts ih =>
    intro acc
    rw [List.foldl_cons]
    rcases ih (tags.foldl (resolveStep st) acc) with hf | ⟨t, ht, htn, hfv⟩
    · rcases foldl_resolveStep_mem st tags acc with hs | ⟨t, ht, htn, hs⟩
      · exact Or.inl (by rw [hf, hs])
      · exact Or.inr ⟨t, ht, by simp [htn], by rw [hf, hs]⟩
    · exact Or.inr ⟨t, ht, List.mem_cons_of_mem _ htn, hfv⟩

theorem getMaxProperty_mem (tags : List metaTag) (key : String) :
    getMaxProperty tags key = "" ∨
    ∃ t ∈ tags, t.name ∈ propertyMap key ∧ getMaxProperty tags key = t.value := by
  unfold getMaxProperty
  rcases foldl_outer_mem tags (propertyMap key) ("", 0) with hf | ⟨t, ht, htn, hfv⟩
  · left
    rw [hf]
  · right
    exact ⟨t, ht, htn, by rw [hfv]⟩

/-- C8: with the legacy confidence-filtering tokenization, raising the
threshold from c1 to c2 > c1 shrinks (or preserves) the set of retained
candidates, and a field resolved from the c2-run's candidates is either
empty or the value of a candidate that the c1-run also retained — never a
value whose candidate the lower threshold would have rejected. -/
theorem confidence_monotone (toks : List Tok) (c1 c2 : ℚ) (h : c1 < c2)
    (ms1 : List metaTag) (is1 : List imgTag) (ms2 : List metaTag) (is2 : List imgTag)
    (h1 : tokenizeLegacy toks c1 = some (ms1, is1))
    (h2 : tokenizeLegacy toks c2 = some (ms2, is2)) :
    (∀ t ∈ ms2, t ∈ ms1) ∧
    ∀ key, getMaxProperty ms2 key = "" ∨
      ∃ t ∈ ms1, t.name ∈ propertyMap key ∧ getMaxProperty ms2 key = t.value := by
  have hrel := tokenizeLegacyGo_filter c1 c2 (le_of_lt h) toks [] []
  rw [tokenizeLegacy] at h1 h2
  rw [h1] at hrel
  have hnil : (([] : List metaTag).filter (fun t => decide (c2 < t.priority))) = [] := rfl
  rw [hnil] at hrel
  rw [h2] at hrel
  injection hrel with hrel'
  injection hrel' with hms his
  have hsub : ∀ t ∈ ms2, t ∈ ms1 := by
    intro t ht
    rw [hms] at ht
    exact List.mem_of_mem_filter ht
  refine ⟨hsub, ?_⟩
  intro key
  rcases getMaxProperty_mem ms2 key with h' | ⟨t, ht, htn, hval⟩
  · exact Or.inl h'
  · exact Or.inr ⟨t, hsub t ht, htn, hval⟩

theorem confidence_monotone_witness :
    ({ name := "og:title", value := "A", priority := 1 } : metaTag) ∈
      [({ name := "og:title", value := "A", priority := 1 } : metaTag),
       { name := "title", value := "B", priority := half }] :=
  (confidence_monotone
    [Tok.start "meta" [("property", "og:title"), ("content", "A")],
      Tok.start "title" [], Tok.text "B"]
    0 half (by decide)
    [{ name := "og:title", value := "A", priority := 1 },
      { name := "title", value := "B", priority := half }] []
    [{ name := "og:title", value := "A", priority := 1 }] []
    rfl rfl).1
    { name := "og:title", value := "A", priority := 1 } (by decide)

end Recon
